import Mathlib

/-!
Verification of the normalization and distribution pipeline of the
f5-telemetry-streaming repository against its natural-language
specification.

The data model is a shallow embedding of the JSON-like values the
JavaScript code manipulates (`src/nodejs/normalize.js`,
the system-poller module and the event-listener module).  JavaScript
objects are ordered association lists (insertion order, assignment to an
existing key overwrites in place), arrays are lists, and the scalar
values that occur in telemetry payloads are strings, integers and
booleans.
-/

set_option autoImplicit false

/-- JSON-like data values, as manipulated by `normalize.js`.  Objects are
ordered association lists mirroring JavaScript property insertion order. -/
inductive JData where
  | str (s : String)
  | num (n : Int)
  | bool (b : Bool)
  | obj (kvs : List (String × JData))
  | arr (xs : List JData)

/-- JavaScript truthiness of a value (`if (v)`): empty string, `0` and
`false` are falsy; every object and array is truthy. -/
def truthy : JData → Bool
  | .str s => s ≠ ""
  | .num n => n ≠ 0
  | .bool b => b
  | .obj _ => true
  | .arr _ => true

/-- Property lookup `data[k]` on an object: the binding for `k`, if any. -/
def lookupKey (kvs : List (String × JData)) (k : String) : Option JData :=
  (kvs.find? (fun p => p.1 == k)).map (fun p => p.2)

/-- JavaScript object assignment `ret[k] = v`: overwrite in place if the key
exists (association lists built by assignment never hold a key twice, so
replacing the first binding is exact), otherwise append at the end. -/
def objInsert : List (String × JData) → String → JData → List (String × JData)
  | [], k, v => [(k, v)]
  | p :: rest, k, v =>
    if p.1 == k then (k, v) :: rest else p :: objInsert rest k v

/-- Sequential JavaScript object construction: insert every pair of `l`
into `acc` in order (`forEach` + assignment). -/
def insertAll (acc l : List (String × JData)) : List (String × JData) :=
  l.foldl (fun a p => objInsert a p.1 p.2) acc

/-! ### Character-list utilities

JavaScript string operations used by the source, modelled on `List Char`
so that they are plain structural recursions. -/

/-- `pat` occurs at the start of `s` (JavaScript `startsWith`). -/
def seqStarts : List Char → List Char → Bool
  | [], _ => true
  | _ :: _, [] => false
  | a :: as, b :: bs => a == b && seqStarts as bs

/-- `pat` occurs somewhere inside `s` (JavaScript `String.includes`). -/
def seqContains (pat : List Char) : List Char → Bool
  | [] => pat.isEmpty
  | c :: rest => seqStarts pat (c :: rest) || seqContains pat rest

/-- JavaScript `s.replace(pat, repl)` with a *string* first argument:
replaces only the first occurrence.  `''` as the pattern inserts `repl`
at the start, as in JavaScript. -/
def replaceFirstSeq (pat repl : List Char) : List Char → List Char
  | [] => if pat = [] then repl else []
  | c :: s =>
    if pat = [] then repl ++ c :: s
    else if seqStarts pat (c :: s) then repl ++ (c :: s).drop pat.length
    else c :: replaceFirstSeq pat repl s

/-- Split on every occurrence of a single-character separator
(JavaScript `String.split` with a one-character string). -/
def splitOnChar (sep : Char) : List Char → List (List Char)
  | [] => [[]]
  | c :: rest =>
    let r := splitOnChar sep rest
    if c = sep then [] :: r
    else
      match r with
      | h :: t => (c :: h) :: t
      | [] => [[c]]

/-! ### Event classifier (`formatAsJson`, `normalize.js` lines 23-38)

The source splits the line on `,`, splits each segment on `=` and reads
element `[1]` of that split, then removes every `"` character from it.
A segment whose split has no element `[1]` makes `keySplit[1].replace`
throw; the surrounding `try`/`catch` logs and returns the record
accumulated so far, so processing stops at the first malformed segment. -/

/-- JavaScript string-keyed record assignment for string values. -/
def insertStr : List (String × String) → String → String → List (String × String)
  | [], k, v => [(k, v)]
  | p :: rest, k, v =>
    if p.1 == k then (k, v) :: rest else p :: insertStr rest k v

/-- `keyValue = keySplit[1].replace(/"/g, '')`: remove every `"`. -/
def stripQuotes (s : List Char) : List Char :=
  s.filter (fun c => c ≠ '\x22')

/-- Process the comma-separated segments in order.  A segment with no `=`
(`keySplit[1]` undefined) raises inside the `try`, so the accumulated
record is returned unchanged and the remaining segments are skipped. -/
def fmtSegs : List (List Char) → List (String × String) → List (String × String)
  | [], acc => acc
  | seg :: rest, acc =>
    match splitOnChar '=' seg with
    | k :: v :: _ => fmtSegs rest (insertStr acc (String.mk k) (String.mk (stripQuotes v)))
    | _ => acc

/-- `formatAsJson` (`normalize.js` lines 23-38): strip newline characters,
split on `,`, and record `keySplit[0] -> keySplit[1]` without quotes for
each segment.  Total by construction: the `try`/`catch` of the source is
modelled by `fmtSegs` stopping at the first malformed segment. -/
def formatAsJson (data : String) : List (String × String) :=
  fmtSegs (splitOnChar ',' (data.toList.filter (fun c => c ≠ '\n'))) []

/-- `normalizeEvent` (`normalize.js` lines 201-204) delegates to
`formatAsJson`. -/
def normalizeEvent (data : String) : List (String × String) :=
  formatAsJson data

/-! ### Tree reducer (`reduceData`, `normalize.js` lines 141-192) -/

/-- The well-known wrapper keys, in the order the source checks them
(`keysToReduce`, line 145). -/
def wrapperKeys : List String := ["nestedStats", "value", "description", "color"]

/-- Lines 146-151: `data[key] !== undefined && Object.keys(data).length === 1`
for one of the four wrapper keys; equivalently, `data` has exactly one key
and it is a wrapper key.  Returns the wrapped value when the rule fires. -/
def singleWrapperVal (kvs : List (String × JData)) : Option JData :=
  match kvs with
  | [p] => if p.1 ∈ wrapperKeys then some p.2 else none
  | _ => none

/-- Line 154: `data.entries` must be truthy for the entries rule to fire. -/
def entriesVal (kvs : List (String × JData)) : Option JData :=
  (lookupKey kvs "entries").bind (fun v => if truthy v then some v else none)

/-- Decimal rendering of an array/string index, as produced by JavaScript
`Object.keys` on an array or string. -/
def natKeyAux (n : Nat) : List Char :=
  if n < 10 then [Nat.digitChar n]
  else natKeyAux (n / 10) ++ [Nat.digitChar (n % 10)]
termination_by n
decreasing_by
  exact Nat.div_lt_self (by omega) (by omega)

/-- String form of an index key. -/
def natKey (n : Nat) : String := String.mk (natKeyAux n)

/-- Line 160: `k.replace('https://localhost/', '').replace('mgmt/tm/', '')`
(JavaScript string `replace` rewrites only the first occurrence). -/
def stripKey (k : String) : String :=
  String.mk (replaceFirstSeq "mgmt/tm/".toList []
    (replaceFirstSeq "https://localhost/".toList [] k.toList))

/-- `Object.keys(data.entries)` iteration when `data.entries` is a string:
the keys are the decimal indices and the values the one-character strings.
The index keys are pairwise distinct, so the sequential insertions of the
source build exactly this list. -/
def charEntries (i : Nat) : List Char → List (String × JData)
  | [] => []
  | c :: rest => (stripKey (natKey i), .str (String.mk [c])) :: charEntries (i + 1) rest

/-- `Object.keys(data.entries)` iteration when `data.entries` is an array:
decimal index keys (stripped like any entry key) with the elements as
values; the index keys are pairwise distinct, so sequential insertion
builds exactly this list. -/
def arrEntries (i : Nat) : List JData → List (String × JData)
  | [] => []
  | x :: rest => (stripKey (natKey i), x) :: arrEntries (i + 1) rest

/-- Lines 155-162 for a non-string `data.entries`: the object rebuilt from
the entry keys with the known URL prefixes stripped.  For an object the
stripped keys can collide, so the sequential insertion semantics matters;
for an array the keys are the distinct decimal indices; for a (truthy)
number or boolean `Object.keys` is empty. -/
def entriesExpand : JData → List (String × JData)
  | .obj kvs => insertAll [] (kvs.map (fun p => (stripKey p.1, p.2)))
  | .arr xs => arrEntries 0 xs
  | _ => []

/-- `options.convertArrayToMap` as passed by `normalizeData`
(`{keyName, keyNamePrefix}` in the source; the second field is named
`keyNamePre` here). -/
structure CatmOpts where
  keyName : String
  keyNamePre : Option String

/-- The options record `reduceData` receives. -/
structure ReduceOpts where
  convertArrayToMap : Option CatmOpts

/-- Line 170-171: `const catm = options.convertArrayToMap; if (catm && catm.keyName)`.
The rule is active only when the option is present with a truthy `keyName`. -/
def catmActive (o : ReduceOpts) : Option CatmOpts :=
  match o.convertArrayToMap with
  | some c => if c.keyName ≠ "" then some c else none
  | none => none

/-- JavaScript string coercion of the key-field value, for building map
keys.  Modelled from the spec: `util.convertArrayToMap` lives in util.js,
which is not under src/; only the coercions of scalar key fields matter. -/
def jsKeyString : Option JData → String
  | some (.str s) => s
  | some (.num n) => toString n
  | some (.bool b) => toString b
  | some _ => "[object Object]"
  | none => "undefined"

/-- Modelled from the spec: `util.convertArrayToMap` (util.js is not under
src/).  Spec 4.1: "convert the array to a keyed object first (each
element's `keyField` value — optionally prefixed — becomes the new key;
element retains all fields including the key field)". -/
def convertArrayToMap (xs : List JData) (keyName : String) (pre : Option String) :
    List (String × JData) :=
  insertAll [] (xs.map (fun e =>
    ((pre.getD "") ++ jsKeyString (match e with
      | .obj kvs => lookupKey kvs keyName
      | _ => none), e)))

/- Structural size of a value, ignoring key strings: the termination
measure of `reduceData`. -/
mutual

def jsize : JData → Nat
  | .obj kvs => 1 + jsizePairs kvs
  | .arr xs => 1 + jsizeElems xs
  | _ => 1

def jsizePairs : List (String × JData) → Nat
  | [] => 0
  | p :: rest => 1 + jsize p.2 + jsizePairs rest

def jsizeElems : List JData → Nat
  | [] => 0
  | x :: rest => 1 + jsize x + jsizeElems rest

end

/-- Arrays rank above other values: the array-to-map conversion keeps the
size but leaves the array constructor, so the measure is lexicographic. -/
def rankArr : JData → Nat
  | .arr _ => 1
  | _ => 0

theorem jsizePairs_append (l₁ l₂ : List (String × JData)) :
    jsizePairs (l₁ ++ l₂) = jsizePairs l₁ + jsizePairs l₂ := by
  induction l₁ with
  | nil => simp [jsizePairs]
  | cons p rest ih => simp [jsizePairs, ih]; omega

theorem jsizePairs_objInsert (kvs : List (String × JData)) (k : String) (v : JData) :
    jsizePairs (objInsert kvs k v) ≤ jsizePairs kvs + (1 + jsize v) := by
  induction kvs with
  | nil => simp [objInsert, jsizePairs]
  | cons q rest ih =>
    by_cases hq : q.1 == k
    · simp only [objInsert, hq, if_true, jsizePairs]
      omega
    · simp only [objInsert, hq, if_false, jsizePairs]
      omega

theorem jsizePairs_insertAll (l : List (String × JData)) :
    ∀ acc, jsizePairs (insertAll acc l) ≤ jsizePairs acc + jsizePairs l := by
  induction l with
  | nil => intro acc; simp [insertAll, jsizePairs]
  | cons p rest ih =>
    intro acc
    have h1 : insertAll acc (p :: rest) = insertAll (objInsert acc p.1 p.2) rest := rfl
    rw [h1]
    have h2 := ih (objInsert acc p.1 p.2)
    have h3 := jsizePairs_objInsert acc p.1 p.2
    simp only [jsizePairs]
    omega

theorem jsizePairs_map_strip (kvs : List (String × JData)) :
    jsizePairs (kvs.map (fun p => (stripKey p.1, p.2))) = jsizePairs kvs := by
  induction kvs with
  | nil => rfl
  | cons p rest ih => simp [jsizePairs, ih]

theorem jsizePairs_arrEntries (xs : List JData) :
    ∀ i, jsizePairs (arrEntries i xs) = jsizeElems xs := by
  induction xs with
  | nil => intro i; rfl
  | cons x rest ih => intro i; simp [arrEntries, jsizePairs, jsizeElems, ih]

theorem jsize_entriesExpand (v : JData) :
    jsize (JData.obj (entriesExpand v)) ≤ jsize v := by
  cases v with
  | obj kvs =>
    have h1 := jsizePairs_insertAll (kvs.map (fun p => (stripKey p.1, p.2))) []
    have h2 := jsizePairs_map_strip kvs
    simp only [entriesExpand, jsize, jsizePairs] at *
    omega
  | arr xs =>
    have := jsizePairs_arrEntries xs 0
    simp only [entriesExpand, jsize]
    omega
  | str s => simp [entriesExpand, jsize, jsizePairs]
  | num n => simp [entriesExpand, jsize, jsizePairs]
  | bool b => simp [entriesExpand, jsize, jsizePairs]

theorem jsizePairs_map_keyed (f : JData → String) (xs : List JData) :
    jsizePairs (xs.map (fun e => (f e, e))) = jsizeElems xs := by
  induction xs with
  | nil => rfl
  | cons x rest ih => simp [jsizePairs, jsizeElems, ih]

theorem jsize_convertArrayToMap (xs : List JData) (kn : String) (pre : Option String) :
    jsize (JData.obj (convertArrayToMap xs kn pre)) ≤ jsize (JData.arr xs) := by
  have h1 := jsizePairs_insertAll (xs.map (fun e =>
    ((pre.getD "") ++ jsKeyString (match e with
      | .obj kvs => lookupKey kvs kn
      | _ => none), e))) []
  have h2 := jsizePairs_map_keyed (fun e =>
    (pre.getD "") ++ jsKeyString (match e with
      | .obj kvs => lookupKey kvs kn
      | _ => none)) xs
  simp only [convertArrayToMap, jsize, jsizePairs] at *
  omega

theorem jsize_lookup {kvs : List (String × JData)} {k : String} {v : JData}
    (h : lookupKey kvs k = some v) : 1 + jsize v ≤ jsizePairs kvs := by
  induction kvs with
  | nil => simp [lookupKey] at h
  | cons p rest ih =>
    unfold lookupKey at h
    by_cases hp : p.1 == k
    · simp [List.find?, hp] at h
      simp [jsizePairs, h]
    · simp only [List.find?, hp] at h
      have := ih h
      simp [jsizePairs]
      omega

theorem singleWrapperVal_eq {kvs : List (String × JData)} {v : JData}
    (h : singleWrapperVal kvs = some v) : ∃ k, kvs = [(k, v)] := by
  match kvs, h with
  | [p], h =>
    unfold singleWrapperVal at h
    by_cases hw : p.1 ∈ wrapperKeys
    · simp [hw] at h
      exact ⟨p.1, by rw [← h]⟩
    · simp [hw] at h

theorem entriesVal_eq {kvs : List (String × JData)} {v : JData}
    (h : entriesVal kvs = some v) :
    lookupKey kvs "entries" = some v ∧ truthy v = true := by
  simp only [entriesVal, Option.bind_eq_some] at h
  obtain ⟨w, hb, hi⟩ := h
  split_ifs at hi with ht
  cases hi
  exact ⟨hb, ht⟩

theorem jsize_mem_pairs {kvs : List (String × JData)} {p : String × JData}
    (h : p ∈ kvs) : jsize p.2 < jsize (JData.obj kvs) := by
  induction kvs with
  | nil => cases h
  | cons q rest ih =>
    cases h with
    | head => simp [jsize, jsizePairs]; omega
    | tail _ h' =>
      have := ih h'
      simp only [jsize, jsizePairs] at *
      omega

theorem jsize_mem_elems {xs : List JData} {x : JData}
    (h : x ∈ xs) : jsize x < jsize (JData.arr xs) := by
  induction xs with
  | nil => cases h
  | cons y rest ih =>
    cases h with
    | head => simp [jsize, jsizeElems]; omega
    | tail _ h' =>
      have := ih h'
      simp only [jsize, jsizeElems] at *
      omega

/-- `reduceData` (`normalize.js` lines 141-192).  The branches, in source
order: the single-wrapper-key transparency rule (lines 144-151), the
`entries` expansion (lines 153-164, rebuilt object re-reduced; when
`data.entries` is a truthy string the re-reduction of the map of
one-character strings returns it unchanged, so that result is given
directly), array handling with optional array-to-map conversion
(lines 168-179), plain recursion into object values (lines 180-185), and
scalars returned as-is (lines 189-191). -/
def reduceData (o : ReduceOpts) (d : JData) : JData :=
  match d with
  | .obj kvs =>
    match hw : singleWrapperVal kvs with
    | some v => reduceData o v
    | none =>
      match he : entriesVal kvs with
      | some (.str s) => .obj (charEntries 0 s.toList)
      | some v => reduceData o (.obj (entriesExpand v))
      | none => .obj (kvs.attach.map (fun p => (p.1.1, reduceData o p.1.2)))
  | .arr xs =>
    match catmActive o with
    | some c => reduceData o (.obj (convertArrayToMap xs c.keyName c.keyNamePre))
    | none => .arr (xs.attach.map (fun x => reduceData o x.1))
  | d => d
termination_by (jsize d, rankArr d)
decreasing_by
  · obtain ⟨k, hk⟩ := singleWrapperVal_eq hw
    subst hk
    apply Prod.Lex.left
    simp only [jsize, jsizePairs]
    omega
  · obtain ⟨hl, -⟩ := entriesVal_eq he
    have h1 := jsize_entriesExpand v
    have h2 := jsize_lookup hl
    apply Prod.Lex.left
    simp only [jsize] at *
    omega
  · apply Prod.Lex.left
    exact jsize_mem_pairs p.2
  · have h1 := jsize_convertArrayToMap xs c.keyName c.keyNamePre
    rcases Nat.lt_or_ge (jsize (JData.obj (convertArrayToMap xs c.keyName c.keyNamePre)))
      (jsize (JData.arr xs)) with h | h
    · exact Prod.Lex.left _ _ h
    · have heq : jsize (JData.obj (convertArrayToMap xs c.keyName c.keyNamePre)) =
          jsize (JData.arr xs) := by omega
      rw [heq]
      exact Prod.Lex.right _ (by simp [rankArr])
  · apply Prod.Lex.left
    exact jsize_mem_elems x.2

/-! Branch equations for `reduceData`, one per source branch. -/

theorem reduceData_str (o : ReduceOpts) (s : String) :
    reduceData o (JData.str s) = JData.str s := by
  rw [reduceData.eq_def]

theorem reduceData_num (o : ReduceOpts) (n : Int) :
    reduceData o (JData.num n) = JData.num n := by
  rw [reduceData.eq_def]

theorem reduceData_bool (o : ReduceOpts) (b : Bool) :
    reduceData o (JData.bool b) = JData.bool b := by
  rw [reduceData.eq_def]

theorem reduceData_wrapper {kvs : List (String × JData)} {v : JData}
    (o : ReduceOpts) (hw : singleWrapperVal kvs = some v) :
    reduceData o (JData.obj kvs) = reduceData o v := by
  rw [reduceData.eq_def]
  dsimp only
  split
  · next v' hw' =>
      rw [hw] at hw'
      cases hw'
      rfl
  · next hw' => rw [hw] at hw'; cases hw'

theorem reduceData_entries_str {kvs : List (String × JData)} {s : String}
    (o : ReduceOpts) (hw : singleWrapperVal kvs = none)
    (he : entriesVal kvs = some (JData.str s)) :
    reduceData o (JData.obj kvs) = JData.obj (charEntries 0 s.toList) := by
  rw [reduceData.eq_def]
  dsimp only
  split
  · next v' hw' => rw [hw] at hw'; cases hw'
  · next =>
      split
      · next s' he' =>
          rw [he] at he'
          cases he'
          rfl
      · next v' hne he' =>
          rw [he] at he'
          cases he'
          exact absurd rfl (hne s)
      · next he' => rw [he] at he'; cases he'

theorem reduceData_entries {kvs : List (String × JData)} {v : JData}
    (o : ReduceOpts) (hw : singleWrapperVal kvs = none)
    (he : entriesVal kvs = some v) (hv : ∀ s, v ≠ JData.str s) :
    reduceData o (JData.obj kvs) = reduceData o (JData.obj (entriesExpand v)) := by
  rw [reduceData.eq_def]
  dsimp only
  split
  · next v' hw' => rw [hw] at hw'; cases hw'
  · next =>
      split
      · next s' he' =>
          rw [he] at he'
          cases he'
          exact absurd rfl (hv s')
      · next v' hne he' =>
          rw [he] at he'
          cases he'
          rfl
      · next he' => rw [he] at he'; cases he'

theorem reduceData_obj_plain {kvs : List (String × JData)}
    (o : ReduceOpts) (hw : singleWrapperVal kvs = none)
    (he : entriesVal kvs = none) :
    reduceData o (JData.obj kvs) =
      JData.obj (kvs.map (fun p => (p.1, reduceData o p.2))) := by
  rw [reduceData.eq_def]
  dsimp only
  split
  · next v' hw' => rw [hw] at hw'; cases hw'
  · next =>
      split
      · next s' he' => rw [he] at he'; cases he'
      · next v' hne he' => rw [he] at he'; cases he'
      · next =>
          rw [List.attach_map_val kvs (fun p => (p.1, reduceData o p.2))]

theorem reduceData_arr_catm {c : CatmOpts}
    (o : ReduceOpts) (xs : List JData) (hc : catmActive o = some c) :
    reduceData o (JData.arr xs) =
      reduceData o (JData.obj (convertArrayToMap xs c.keyName c.keyNamePre)) := by
  rw [reduceData.eq_def]
  dsimp only
  split
  · next c' hc' =>
      rw [hc] at hc'
      cases hc'
      rfl
  · next hc' => rw [hc] at hc'; cases hc'

theorem reduceData_arr_plain
    (o : ReduceOpts) (xs : List JData) (hc : catmActive o = none) :
    reduceData o (JData.arr xs) = JData.arr (xs.map (reduceData o)) := by
  rw [reduceData.eq_def]
  dsimp only
  split
  · next c' hc' => rw [hc] at hc'; cases hc'
  · next =>
      rw [List.attach_map_val xs (reduceData o)]

/-! Facts about index keys: `Object.keys` of an array or string yields
decimal index strings, which contain only digit characters, hence are
never a wrapper key, never `entries`, and are untouched by prefix
stripping. -/

theorem digitChar_isDigit (m : Nat) (h : m < 10) : (Nat.digitChar m).isDigit = true := by
  interval_cases m <;> decide

theorem natKeyAux_digits : ∀ (n : Nat), ∀ c ∈ natKeyAux n, c.isDigit = true := by
  intro n
  induction n using natKeyAux.induct with
  | case1 n h =>
    intro c hc
    rw [natKeyAux, if_pos h, List.mem_singleton] at hc
    subst hc
    exact digitChar_isDigit n h
  | case2 n h ih =>
    intro c hc
    rw [natKeyAux, if_neg h] at hc
    rcases List.mem_append.1 hc with hc | hc
    · exact ih c hc
    · rw [List.mem_singleton] at hc
      subst hc
      exact digitChar_isDigit _ (Nat.mod_lt _ (by omega))

theorem natKey_ne_of_nondigit (w : String) (c : Char) (hc : c ∈ w.toList)
    (hd : c.isDigit = false) : ∀ n, natKey n ≠ w := by
  intro n h
  have hdata : natKeyAux n = w.toList := congrArg String.toList h
  rw [← hdata] at hc
  rw [natKeyAux_digits n c hc] at hd
  cases hd

theorem seqStarts_mem : ∀ (pat l : List Char), seqStarts pat l = true → ∀ x ∈ pat, x ∈ l := by
  intro pat
  induction pat with
  | nil => intro l _ x hx; cases hx
  | cons a as ih =>
    intro l h x hx
    cases l with
    | nil => cases h
    | cons b bs =>
      simp only [seqStarts, Bool.and_eq_true, beq_iff_eq] at h
      rcases List.mem_cons.1 hx with hx | hx
      · subst hx
        rw [h.1]
        exact List.mem_cons_self _ _
      · exact List.mem_cons_of_mem _ (ih bs h.2 x hx)

theorem replaceFirstSeq_of_disjoint (pat repl : List Char) (c : Char) (hc : c ∈ pat) :
    ∀ (s : List Char), (∀ d ∈ s, d ≠ c) → replaceFirstSeq pat repl s = s := by
  have hpat : pat ≠ [] := by intro h; rw [h] at hc; cases hc
  intro s
  induction s with
  | nil => intro _; rw [replaceFirstSeq, if_neg hpat]
  | cons a s ih =>
    intro hd
    rw [replaceFirstSeq, if_neg hpat]
    have hns : seqStarts pat (a :: s) ≠ true := by
      intro hs
      exact hd c (seqStarts_mem pat (a :: s) hs c hc) rfl
    rw [if_neg hns]
    rw [ih (fun d hds => hd d (List.mem_cons_of_mem _ hds))]

theorem stripKey_natKey (n : Nat) : stripKey (natKey n) = natKey n := by
  unfold stripKey natKey
  have hdig : ∀ d ∈ natKeyAux n, d.isDigit = true := natKeyAux_digits n
  have h1 : replaceFirstSeq "https://localhost/".toList [] (String.mk (natKeyAux n)).toList =
      natKeyAux n := by
    apply replaceFirstSeq_of_disjoint _ _ 'h' (by decide)
    intro d hds heq
    rw [heq] at hds
    have := hdig _ hds
    exact absurd this (by decide)
  rw [h1]
  have h2 : replaceFirstSeq "mgmt/tm/".toList [] (natKeyAux n) = natKeyAux n := by
    apply replaceFirstSeq_of_disjoint _ _ 'm' (by decide)
    intro d hds heq
    rw [heq] at hds
    have := hdig _ hds
    exact absurd this (by decide)
  rw [h2]

theorem charEntries_mem {i : Nat} {l : List Char} {p : String × JData}
    (h : p ∈ charEntries i l) :
    (∃ j, p.1 = natKey j) ∧ ∃ c, p.2 = JData.str (String.mk [c]) := by
  induction l generalizing i with
  | nil => cases h
  | cons c rest ih =>
    rw [charEntries] at h
    rcases List.mem_cons.1 h with h | h
    · subst h
      exact ⟨⟨i, stripKey_natKey i⟩, c, rfl⟩
    · exact ih h

theorem natKey_not_wrapper (n : Nat) : natKey n ∉ wrapperKeys := by
  intro h
  simp only [wrapperKeys, List.mem_cons, List.mem_singleton, List.not_mem_nil, or_false] at h
  rcases h with h | h | h | h
  · exact natKey_ne_of_nondigit "nestedStats" 'n' (by decide) (by decide) n h
  · exact natKey_ne_of_nondigit "value" 'v' (by decide) (by decide) n h
  · exact natKey_ne_of_nondigit "description" 'd' (by decide) (by decide) n h
  · exact natKey_ne_of_nondigit "color" 'c' (by decide) (by decide) n h

theorem natKey_ne_entries (n : Nat) : natKey n ≠ "entries" :=
  natKey_ne_of_nondigit "entries" 'e' (by decide) (by decide) n

theorem singleWrapperVal_none_of {kvs : List (String × JData)}
    (h : ∀ p ∈ kvs, p.1 ∉ wrapperKeys) : singleWrapperVal kvs = none := by
  cases kvs with
  | nil => rfl
  | cons p rest =>
    cases rest with
    | nil =>
      have hp := h p (List.mem_cons_self p [])
      simp [singleWrapperVal, hp]
    | cons q rest2 => rfl

theorem lookupKey_none_of {kvs : List (String × JData)} {k : String}
    (h : ∀ p ∈ kvs, p.1 ≠ k) : lookupKey kvs k = none := by
  unfold lookupKey
  rw [List.find?_eq_none.2 (fun p hp => by simpa using h p hp)]
  rfl

theorem entriesVal_none_of_lookup {kvs : List (String × JData)}
    (h : lookupKey kvs "entries" = none) : entriesVal kvs = none := by
  rw [entriesVal, h]
  rfl

/-! A fuel-indexed executable twin of `reduceData`.  `reduceData` is
defined by well-founded recursion, which the kernel cannot evaluate, so
concrete runs are carried out by `reduceFuel` and transported along
`reduceFuel_eq`. -/

def reduceFuel : Nat → ReduceOpts → JData → Option JData
  | 0, _, _ => none
  | n + 1, o, d =>
    match d with
    | .obj kvs =>
      match singleWrapperVal kvs with
      | some v => reduceFuel n o v
      | none =>
        match entriesVal kvs with
        | some (.str s) => some (.obj (charEntries 0 s.toList))
        | some v => reduceFuel n o (.obj (entriesExpand v))
        | none =>
          (kvs.foldr (fun p acc =>
            match reduceFuel n o p.2, acc with
            | some r, some l => some ((p.1, r) :: l)
            | _, _ => none) (some [])).map .obj
    | .arr xs =>
      match catmActive o with
      | some c => reduceFuel n o (.obj (convertArrayToMap xs c.keyName c.keyNamePre))
      | none =>
        (xs.foldr (fun x acc =>
          match reduceFuel n o x, acc with
          | some r, some l => some (r :: l)
          | _, _ => none) (some [])).map .arr
    | d => some d

theorem reduceFuel_pairs_eq {n : Nat} {o : ReduceOpts}
    (ih : ∀ d r, reduceFuel n o d = some r → reduceData o d = r) :
    ∀ (kvs : List (String × JData)) (l : List (String × JData)),
      kvs.foldr (fun p acc =>
        match reduceFuel n o p.2, acc with
        | some r, some l => some ((p.1, r) :: l)
        | _, _ => none) (some []) = some l →
      kvs.map (fun p => (p.1, reduceData o p.2)) = l := by
  intro kvs
  induction kvs with
  | nil => intro l h; cases h; rfl
  | cons p rest ihl =>
    intro l h
    simp only [List.foldr] at h
    cases hp : reduceFuel n o p.2 with
    | none => rw [hp] at h; cases h
    | some r =>
      rw [hp] at h
      cases hrest : rest.foldr (fun p acc =>
          match reduceFuel n o p.2, acc with
          | some r, some l => some ((p.1, r) :: l)
          | _, _ => none) (some []) with
      | none => rw [hrest] at h; cases h
      | some l' =>
        rw [hrest] at h
        cases h
        simp only [List.map, ih p.2 r hp, ihl l' hrest]

theorem reduceFuel_elems_eq {n : Nat} {o : ReduceOpts}
    (ih : ∀ d r, reduceFuel n o d = some r → reduceData o d = r) :
    ∀ (xs : List JData) (l : List JData),
      xs.foldr (fun x acc =>
        match reduceFuel n o x, acc with
        | some r, some l => some (r :: l)
        | _, _ => none) (some []) = some l →
      xs.map (reduceData o) = l := by
  intro xs
  induction xs with
  | nil => intro l h; cases h; rfl
  | cons x rest ihl =>
    intro l h
    simp only [List.foldr] at h
    cases hx : reduceFuel n o x with
    | none => rw [hx] at h; cases h
    | some r =>
      rw [hx] at h
      cases hrest : rest.foldr (fun x acc =>
          match reduceFuel n o x, acc with
          | some r, some l => some (r :: l)
          | _, _ => none) (some []) with
      | none => rw [hrest] at h; cases h
      | some l' =>
        rw [hrest] at h
        cases h
        simp only [List.map, ih x r hx, ihl l' hrest]

/-- Whenever the fuel suffices, `reduceFuel` computes `reduceData`. -/
theorem reduceFuel_eq : ∀ (n : Nat) (o : ReduceOpts) (d : JData) (r : JData),
    reduceFuel n o d = some r → reduceData o d = r := by
  intro n
  induction n with
  | zero => intro o d r h; cases h
  | succ n ih =>
    intro o d r h
    cases d with
    | str s => cases h; exact reduceData_str o _
    | num m => cases h; exact reduceData_num o _
    | bool b => cases h; exact reduceData_bool o _
    | obj kvs =>
      rw [show reduceFuel (n + 1) o (JData.obj kvs) = (match singleWrapperVal kvs with
        | some v => reduceFuel n o v
        | none =>
          match entriesVal kvs with
          | some (.str s) => some (.obj (charEntries 0 s.toList))
          | some v => reduceFuel n o (.obj (entriesExpand v))
          | none =>
            (kvs.foldr (fun p acc =>
              match reduceFuel n o p.2, acc with
              | some r, some l => some ((p.1, r) :: l)
              | _, _ => none) (some [])).map .obj) from rfl] at h
      cases hw : singleWrapperVal kvs with
      | some v =>
        rw [hw] at h
        rw [reduceData_wrapper o hw]
        exact ih o v r h
      | none =>
        rw [hw] at h
        cases he : entriesVal kvs with
        | some v =>
          rw [he] at h
          cases v with
          | str s =>
            cases h
            exact reduceData_entries_str o hw he
          | num m =>
            rw [reduceData_entries o hw he (fun s hs => by cases hs)]
            exact ih o _ r h
          | bool b =>
            rw [reduceData_entries o hw he (fun s hs => by cases hs)]
            exact ih o _ r h
          | obj kvs' =>
            rw [reduceData_entries o hw he (fun s hs => by cases hs)]
            exact ih o _ r h
          | arr xs =>
            rw [reduceData_entries o hw he (fun s hs => by cases hs)]
            exact ih o _ r h
        | none =>
          rw [he] at h
          rw [reduceData_obj_plain o hw he]
          cases hf : kvs.foldr (fun p acc =>
              match reduceFuel n o p.2, acc with
              | some r, some l => some ((p.1, r) :: l)
              | _, _ => none) (some []) with
          | none => rw [hf] at h; cases h
          | some l =>
            rw [hf] at h
            cases h
            rw [reduceFuel_pairs_eq (fun d r h => ih o d r h) kvs l hf]
    | arr xs =>
      rw [show reduceFuel (n + 1) o (JData.arr xs) = (match catmActive o with
        | some c => reduceFuel n o (.obj (convertArrayToMap xs c.keyName c.keyNamePre))
        | none =>
          (xs.foldr (fun x acc =>
            match reduceFuel n o x, acc with
            | some r, some l => some (r :: l)
            | _, _ => none) (some [])).map .arr) from rfl] at h
      cases hc : catmActive o with
      | some c =>
        rw [hc] at h
        rw [reduceData_arr_catm o xs hc]
        exact ih o _ r h
      | none =>
        rw [hc] at h
        rw [reduceData_arr_plain o xs hc]
        cases hf : xs.foldr (fun x acc =>
            match reduceFuel n o x, acc with
            | some r, some l => some (r :: l)
            | _, _ => none) (some []) with
        | none => rw [hf] at h; cases h
        | some l =>
          rw [hf] at h
          cases h
          rw [reduceFuel_elems_eq (fun d r h => ih o d r h) xs l hf]

/-! ### Idempotence of the tree reducer -/

/-- A value is *reduced* when `reduceData` leaves it unchanged: no
single-wrapper-key objects, no truthy `entries` key, and (when
array-to-map conversion is active) no arrays remain. -/
inductive Reduced (o : ReduceOpts) : JData → Prop
  | str (s : String) : Reduced o (.str s)
  | num (n : Int) : Reduced o (.num n)
  | bool (b : Bool) : Reduced o (.bool b)
  | obj (kvs : List (String × JData)) (hw : singleWrapperVal kvs = none)
      (he : entriesVal kvs = none) (hall : ∀ p ∈ kvs, Reduced o p.2) :
      Reduced o (.obj kvs)
  | arr (xs : List JData) (hc : catmActive o = none)
      (hall : ∀ x ∈ xs, Reduced o x) : Reduced o (.arr xs)

theorem map_eq_self_of_mem {α : Type} {l : List α} {f : α → α}
    (h : ∀ a ∈ l, f a = a) : l.map f = l := by
  induction l with
  | nil => rfl
  | cons a rest ih =>
    simp only [List.map, h a (List.mem_cons_self a rest),
      ih (fun b hb => h b (List.mem_cons_of_mem a hb))]

/-- A reduced value is a fixed point of `reduceData`. -/
theorem reduceData_of_reduced {o : ReduceOpts} {d : JData}
    (h : Reduced o d) : reduceData o d = d := by
  induction h with
  | str s => exact reduceData_str o s
  | num n => exact reduceData_num o n
  | bool b => exact reduceData_bool o b
  | obj kvs hw he hall ih =>
    rw [reduceData_obj_plain o hw he]
    congr 1
    apply map_eq_self_of_mem
    intro p hp
    rw [ih p hp]
  | arr xs hc hall ih =>
    rw [reduceData_arr_plain o xs hc]
    congr 1
    apply map_eq_self_of_mem
    intro x hx
    exact ih x hx

theorem lookupKey_map_vals (kvs : List (String × JData)) (k : String) (f : JData → JData) :
    lookupKey (kvs.map (fun p => (p.1, f p.2))) k = (lookupKey kvs k).map f := by
  induction kvs with
  | nil => rfl
  | cons p rest ih =>
    unfold lookupKey at *
    by_cases hp : p.1 == k
    · simp [List.find?, hp]
    · simp only [List.map, List.find?, hp]
      exact ih

theorem singleWrapperVal_map_vals {kvs : List (String × JData)}
    (hw : singleWrapperVal kvs = none) (f : JData → JData) :
    singleWrapperVal (kvs.map (fun p => (p.1, f p.2))) = none := by
  cases kvs with
  | nil => rfl
  | cons p rest =>
    cases rest with
    | nil =>
      by_cases hp : p.1 ∈ wrapperKeys
      · exact absurd hw (by simp [singleWrapperVal, hp])
      · simp [singleWrapperVal, hp]
    | cons q rest2 => rfl

/-- A falsy value is a scalar, hence a `reduceData` fixed point. -/
theorem reduceData_falsy {v : JData} (o : ReduceOpts) (h : truthy v = false) :
    reduceData o v = v := by
  cases v with
  | str s => exact reduceData_str o s
  | num n => exact reduceData_num o n
  | bool b => exact reduceData_bool o b
  | obj kvs => cases h
  | arr xs => cases h

theorem truthy_reduceData {v : JData} (o : ReduceOpts) (h : truthy v = false) :
    truthy (reduceData o v) = false := by
  rw [reduceData_falsy o h]
  exact h

theorem entriesVal_none_map {kvs : List (String × JData)} (o : ReduceOpts)
    (he : entriesVal kvs = none) :
    entriesVal (kvs.map (fun p => (p.1, reduceData o p.2))) = none := by
  unfold entriesVal at *
  rw [lookupKey_map_vals]
  cases hl : lookupKey kvs "entries" with
  | none => rfl
  | some v =>
    rw [hl] at he
    have hif : (if truthy v = true then some v else none) = none := he
    have ht : truthy v = false := by
      cases htv : truthy v
      · rfl
      · rw [if_pos htv] at hif; cases hif
    show (if truthy (reduceData o v) = true then some (reduceData o v) else none) = none
    rw [truthy_reduceData o ht]
    rfl

theorem reduced_charEntries (o : ReduceOpts) (i : Nat) (l : List Char) :
    Reduced o (JData.obj (charEntries i l)) := by
  apply Reduced.obj
  · apply singleWrapperVal_none_of
    intro p hp
    obtain ⟨⟨j, hj⟩, -⟩ := charEntries_mem hp
    rw [hj]
    exact natKey_not_wrapper j
  · apply entriesVal_none_of_lookup
    apply lookupKey_none_of
    intro p hp
    obtain ⟨⟨j, hj⟩, -⟩ := charEntries_mem hp
    rw [hj]
    exact natKey_ne_entries j
  · intro p hp
    obtain ⟨-, c, hc⟩ := charEntries_mem hp
    rw [hc]
    exact Reduced.str _

/-- `reduceData` always produces a reduced value. -/
theorem reduced_reduceData (o : ReduceOpts) : ∀ d, Reduced o (reduceData o d) := by
  intro d
  induction d using reduceData.induct o with
  | case1 kvs v hw ih =>
    rw [reduceData_wrapper o hw]
    exact ih
  | case2 kvs hw s he =>
    rw [reduceData_entries_str o hw he]
    exact reduced_charEntries o 0 s.toList
  | case3 kvs hw v hne he ih =>
    rw [reduceData_entries o hw he (fun s hs => hne s hs)]
    exact ih
  | case4 kvs hw he ih =>
    rw [reduceData_obj_plain o hw he]
    apply Reduced.obj
    · exact singleWrapperVal_map_vals hw _
    · exact entriesVal_none_map o he
    · intro p hp
      rw [List.mem_map] at hp
      obtain ⟨q, hq, hpq⟩ := hp
      rw [← hpq]
      exact ih ⟨q, hq⟩
  | case5 xs c hc ih =>
    rw [reduceData_arr_catm o xs hc]
    exact ih
  | case6 xs hc ih =>
    rw [reduceData_arr_plain o xs hc]
    apply Reduced.arr
    · exact hc
    · intro x hx
      rw [List.mem_map] at hx
      obtain ⟨y, hy, hxy⟩ := hx
      rw [← hxy]
      exact ih ⟨y, hy⟩
  | case7 x hobj harr =>
    cases x with
    | str s => rw [reduceData_str]; exact Reduced.str s
    | num n => rw [reduceData_num]; exact Reduced.num n
    | bool b => rw [reduceData_bool]; exact Reduced.bool b
    | obj kvs => exact absurd rfl (hobj kvs)
    | arr xs => exact absurd rfl (harr xs)

/-! ### Wrapper transparency (spec 4.1) -/

/-- A scalar value (not an object, not an array). -/
def isScalar : JData → Bool
  | .obj _ => false
  | .arr _ => false
  | _ => true

/-- Trees built only of wrapper-key-shaped single-key objects around a
scalar core (the shape quantified over by claim C7). -/
inductive WrapperShaped : JData → Prop
  | scalar (d : JData) (h : isScalar d = true) : WrapperShaped d
  | wrap (k : String) (v : JData) (hk : k ∈ wrapperKeys) (hv : WrapperShaped v) :
      WrapperShaped (.obj [(k, v)])

/-- Follows the claim's words: the scalar obtained by peeling every
single-wrapper-key layer. -/
def unwrapCore : JData → JData
  | .obj [(k, v)] => if k ∈ wrapperKeys then unwrapCore v else .obj [(k, v)]
  | d => d

theorem wrapperShaped_reduce (o : ReduceOpts) :
    ∀ t, WrapperShaped t → reduceData o t = unwrapCore t ∧ isScalar (unwrapCore t) = true := by
  intro t h
  induction h with
  | scalar d hd =>
    cases d with
    | str s => exact ⟨reduceData_str o s, rfl⟩
    | num n => exact ⟨reduceData_num o n, rfl⟩
    | bool b => exact ⟨reduceData_bool o b, rfl⟩
    | obj kvs => cases hd
    | arr xs => cases hd
  | wrap k v hk hv ih =>
    have hw : singleWrapperVal [(k, v)] = some v := by simp [singleWrapperVal, hk]
    have hu : unwrapCore (JData.obj [(k, v)]) = unwrapCore v := by
      rw [unwrapCore.eq_def]
      dsimp only
      rw [if_pos hk]
    constructor
    · rw [reduceData_wrapper o hw, hu, ih.1]
    · rw [hu]
      exact ih.2

/-- C7: an object with exactly one key drawn from the wrapper-key set is
transparent under reduction; every tree built only of wrapper-key-shaped
single-key objects reduces to its fully unwrapped scalar core; and a
multi-key object is not unwrapped — its keys are preserved (stated for
objects the `entries` rule does not touch, since that rule is a separate
transformation). -/
theorem reduceData_wrapper_transparency (o : ReduceOpts) :
    (∀ k v, k ∈ wrapperKeys → reduceData o (JData.obj [(k, v)]) = reduceData o v)
    ∧ (∀ t, WrapperShaped t → reduceData o t = unwrapCore t ∧ isScalar (unwrapCore t) = true)
    ∧ (∀ kvs, kvs.length ≠ 1 → entriesVal kvs = none →
        reduceData o (JData.obj kvs) =
          JData.obj (kvs.map (fun p => (p.1, reduceData o p.2)))) := by
  refine ⟨?_, wrapperShaped_reduce o, ?_⟩
  · intro k v hk
    exact reduceData_wrapper o (by simp [singleWrapperVal, hk])
  · intro kvs hlen he
    have hw : singleWrapperVal kvs = none := by
      cases kvs with
      | nil => rfl
      | cons p rest =>
        cases rest with
        | nil => exact absurd rfl hlen
        | cons q rest2 => rfl
    exact reduceData_obj_plain o hw he

theorem reduceData_wrapper_transparency_witness :
    reduceData ⟨none⟩ (JData.obj [("value", JData.str "x")]) = reduceData ⟨none⟩ (JData.str "x")
    ∧ (reduceData ⟨none⟩ (JData.obj [("value", JData.str "x")]) =
        unwrapCore (JData.obj [("value", JData.str "x")])
      ∧ isScalar (unwrapCore (JData.obj [("value", JData.str "x")])) = true)
    ∧ reduceData ⟨none⟩ (JData.obj [("value", JData.str "x"), ("a", JData.num 1)]) =
        JData.obj ([("value", JData.str "x"), ("a", JData.num 1)].map
          (fun p => (p.1, reduceData ⟨none⟩ p.2))) :=
  ⟨(reduceData_wrapper_transparency ⟨none⟩).1 "value" (JData.str "x") (by decide),
   (reduceData_wrapper_transparency ⟨none⟩).2.1 _
     (WrapperShaped.wrap _ _ (by decide) (WrapperShaped.scalar _ rfl)),
   (reduceData_wrapper_transparency ⟨none⟩).2.2 _ (by decide) rfl⟩

/-- C9: `reduceData` is idempotent on its own output. -/
theorem reduceData_idempotent (o : ReduceOpts) (t : JData) :
    reduceData o (reduceData o t) = reduceData o t :=
  reduceData_of_reduced (reduced_reduceData o t)

/-- C6: the end-to-end reduction scenario of spec section 8: the `entries`
wrapper is expanded, the known URL prefixes are stripped from the entry
key, and the nested wrapper keys are fully unwrapped. -/
theorem reduceData_end_to_end :
    reduceData ⟨none⟩ (JData.obj [("entries", JData.obj
      [("https://localhost/mgmt/tm/sys/x/0.0/stats", JData.obj
        [("nestedStats", JData.obj [("entries", JData.obj
          [("value", JData.obj [("description", JData.str "5")])])])])])]) =
    JData.obj [("sys/x/0.0/stats", JData.str "5")] :=
  reduceFuel_eq 20 ⟨none⟩ _ _ rfl

/-! ### Pattern-based key renaming (`renameKeysInData`, normalize.js 98-130) -/

/-- One entry of the pattern table.  `trigger` is the table key `pK`
(the literal-substring pre-filter `k.includes(pK)`).  `regexMatch k`
abstracts the JavaScript regex machinery of lines 110-115 — the choice
between a bare pattern and a `{pattern, group}` record, the regex test
`k.match(pattern)` and the capture-group selection `checkForMatch[group]`
(default group 0): it returns `some r` when the regex matches `k` with
`r` the selected capture group, `none` when the regex does not match. -/
structure RenamePattern where
  trigger : String
  regexMatch : String → Option String

/-- Lines 103-118 for a single key: iterate the pattern table in
declaration order; every entry whose trigger is a substring of the key
and whose regex matches overwrites `renamedKey` (the loop has no break),
so the last matching entry is the one that sticks; a key matching no
entry keeps its name. -/
def renameKeyCode (ps : List RenamePattern) (k : String) : String :=
  (ps.foldl (fun acc p =>
    if seqContains p.trigger.toList k.toList then
      match p.regexMatch k with
      | some nk => some nk
      | none => acc
    else acc) none).getD k

/-- `renameKeysInData` (normalize.js lines 98-130): keys of non-array
objects are renamed and their values recursed into (`ret[renamedKey] =
renameKeysInData(data[k], patterns)`); arrays and scalars fall through to
`ret = data` (line 102 guards with `!Array.isArray(data)`). -/
def renameKeysInData (ps : List RenamePattern) (d : JData) : JData :=
  match d with
  | .obj kvs => .obj (insertAll []
      (kvs.attach.map (fun p => (renameKeyCode ps p.1.1, renameKeysInData ps p.1.2))))
  | d => d
termination_by jsize d
decreasing_by
  exact jsize_mem_pairs p.2

theorem renameKeysInData_obj (ps : List RenamePattern) (kvs : List (String × JData)) :
    renameKeysInData ps (JData.obj kvs) = JData.obj (insertAll []
      (kvs.map (fun p => (renameKeyCode ps p.1, renameKeysInData ps p.2)))) := by
  rw [renameKeysInData.eq_def]
  dsimp only
  rw [List.attach_map_val kvs (fun p => (renameKeyCode ps p.1, renameKeysInData ps p.2))]

theorem renameKeysInData_str (ps : List RenamePattern) (s : String) :
    renameKeysInData ps (JData.str s) = JData.str s := by
  rw [renameKeysInData.eq_def]

theorem renameKeysInData_arr (ps : List RenamePattern) (xs : List JData) :
    renameKeysInData ps (JData.arr xs) = JData.arr xs := by
  rw [renameKeysInData.eq_def]

/-- C10: `renameKeysInData` returns every array unchanged, without
recursing into its elements — objects nested inside arrays never have
their keys renamed, whatever the pattern table. -/
theorem renameKeysInData_array_frame (ps : List RenamePattern) (xs : List JData) :
    renameKeysInData ps (JData.arr xs) = JData.arr xs := by
  rw [renameKeysInData.eq_def]

/-- Follows claim C1's words: the FIRST pattern-table entry (in
declaration order) whose trigger string is a literal substring of the key
and whose regex matches determines the new key; a key matching no
trigger, or only triggers whose regexes fail, keeps its original name. -/
def renameKeyFirstSpec (ps : List RenamePattern) (k : String) : String :=
  match ps.find? (fun p =>
      seqContains p.trigger.toList k.toList && (p.regexMatch k).isSome) with
  | some p => (p.regexMatch k).getD k
  | none => k

/-- Follows claim C1's words lifted to trees, with the recursion structure
of the source (rename keys of non-array objects, recurse into values,
leave arrays and scalars alone). -/
def renameByPatternFirstSpec (ps : List RenamePattern) (d : JData) : JData :=
  match d with
  | .obj kvs => .obj (insertAll []
      (kvs.attach.map (fun p => (renameKeyFirstSpec ps p.1.1, renameByPatternFirstSpec ps p.1.2))))
  | d => d
termination_by jsize d
decreasing_by
  exact jsize_mem_pairs p.2

theorem renameByPatternFirstSpec_obj (ps : List RenamePattern) (kvs : List (String × JData)) :
    renameByPatternFirstSpec ps (JData.obj kvs) = JData.obj (insertAll []
      (kvs.map (fun p => (renameKeyFirstSpec ps p.1, renameByPatternFirstSpec ps p.2)))) := by
  rw [renameByPatternFirstSpec.eq_def]
  dsimp only
  rw [List.attach_map_val kvs
    (fun p => (renameKeyFirstSpec ps p.1, renameByPatternFirstSpec ps p.2))]

theorem renameByPatternFirstSpec_str (ps : List RenamePattern) (s : String) :
    renameByPatternFirstSpec ps (JData.str s) = JData.str s := by
  rw [renameByPatternFirstSpec.eq_def]

/-- The amended claim's per-key rule: the LAST pattern-table entry (in
declaration order) whose trigger string is a literal substring of the key
and whose regex matches determines the new key; a key matching no
trigger, or only triggers whose regexes fail, keeps its original name. -/
def renameKeyLastSpec (ps : List RenamePattern) (k : String) : String :=
  match (ps.filter (fun p =>
      seqContains p.trigger.toList k.toList && (p.regexMatch k).isSome)).getLast? with
  | some p => (p.regexMatch k).getD k
  | none => k

theorem rename_step_eval (p : RenamePattern) (k : String) (acc : Option String) :
    (if seqContains p.trigger.toList k.toList then
      match p.regexMatch k with
      | some nk => some nk
      | none => acc
    else acc) =
    (if (seqContains p.trigger.toList k.toList && (p.regexMatch k).isSome) = true
     then p.regexMatch k else acc) := by
  cases htr : seqContains p.trigger.toList k.toList with
  | true =>
    cases hre : p.regexMatch k with
    | some nk => simp
    | none => simp
  | false => simp

theorem foldl_rename_last (k : String) (ps : List RenamePattern) :
    ∀ acc : Option String,
      ps.foldl (fun acc p =>
        if seqContains p.trigger.toList k.toList then
          match p.regexMatch k with
          | some nk => some nk
          | none => acc
        else acc) acc =
      match (ps.filter (fun p =>
          seqContains p.trigger.toList k.toList && (p.regexMatch k).isSome)).getLast? with
      | some p => p.regexMatch k
      | none => acc := by
  induction ps using List.reverseRecOn with
  | nil => intro acc; rfl
  | append_singleton ps p ih =>
    intro acc
    rw [List.foldl_append, List.filter_append, List.foldl_cons, List.foldl_nil, ih acc]
    rw [rename_step_eval]
    by_cases hc : (seqContains p.trigger.toList k.toList && (p.regexMatch k).isSome) = true
    · rw [if_pos hc]
      have hfil : List.filter (fun p =>
          seqContains p.trigger.toList k.toList && (p.regexMatch k).isSome) [p] = [p] := by
        rw [List.filter_cons, if_pos hc, List.filter_nil]
      rw [hfil, List.getLast?_concat]
    · rw [if_neg hc]
      have hfil : List.filter (fun p =>
          seqContains p.trigger.toList k.toList && (p.regexMatch k).isSome) [p] = [] := by
        rw [List.filter_cons, if_neg hc, List.filter_nil]
      rw [hfil, List.append_nil]

theorem renameKeyCode_eq_last (ps : List RenamePattern) (k : String) :
    renameKeyCode ps k = renameKeyLastSpec ps k := by
  unfold renameKeyCode renameKeyLastSpec
  rw [foldl_rename_last k ps none]
  cases hl : (ps.filter (fun p =>
      seqContains p.trigger.toList k.toList && (p.regexMatch k).isSome)).getLast? with
  | none => rfl
  | some p => rfl

/-- C1 (amended): each key of a non-array object is renamed according to
the LAST pattern-table entry (in declaration order) whose trigger is a
literal substring of the key and whose regex matches; a key matching no
trigger, or only triggers whose regexes fail, keeps its name; values are
recursed into and the renamed bindings are inserted in order. -/
theorem renameByPattern_last_entry_wins (ps : List RenamePattern) (kvs : List (String × JData)) :
    renameKeysInData ps (JData.obj kvs) = JData.obj (insertAll []
      (kvs.map (fun p => (renameKeyLastSpec ps p.1, renameKeysInData ps p.2)))) := by
  have hm : kvs.map (fun p => (renameKeyCode ps p.1, renameKeysInData ps p.2)) =
      kvs.map (fun p => (renameKeyLastSpec ps p.1, renameKeysInData ps p.2)) :=
    List.map_congr_left (fun p _ => by rw [renameKeyCode_eq_last])
  rw [renameKeysInData_obj, hm]

/-- C1 (counterexample): with a pattern table whose two entries both
trigger on the key `ab` and rename it differently, the code renames to
the result of the second (last) entry, not the first — refuting
first-entry-wins. -/
theorem renameFirstWins_counterexample :
    renameKeysInData [⟨"a", fun _ => some "first"⟩, ⟨"b", fun _ => some "second"⟩]
      (JData.obj [("ab", JData.str "x")]) ≠
    renameByPatternFirstSpec [⟨"a", fun _ => some "first"⟩, ⟨"b", fun _ => some "second"⟩]
      (JData.obj [("ab", JData.str "x")]) := by
  rw [renameKeysInData_obj, renameByPatternFirstSpec_obj]
  simp only [List.map]
  rw [renameKeysInData_str, renameByPatternFirstSpec_str]
  rw [show renameKeyCode [⟨"a", fun _ => some "first"⟩, ⟨"b", fun _ => some "second"⟩]
      "ab" = "second" from rfl]
  rw [show renameKeyFirstSpec [⟨"a", fun _ => some "first"⟩, ⟨"b", fun _ => some "second"⟩]
      "ab" = "first" from rfl]
  simp [insertAll, objInsert]

/-! ### Event classifier claims -/

/-- C4: the classifier never raises — it is total by construction, the
`try`/`catch` of the source turning a malformed segment into an early
return of the record accumulated so far: a well-formed line yields the
full record, a line with a malformed segment yields the partial record
(the log call is I/O and outside the model). -/
theorem formatAsJson_fail_soft :
    formatAsJson "A=\x221\x22,B=\x222\x22" = [("A", "1"), ("B", "2")]
    ∧ formatAsJson "A=\x221\x22,Bnoequals" = [("A", "1")] := by
  decide

/-- C5 (counterexample): the code does not split a segment on the first
`=` only — `KEY="a=b"` does not map KEY to `a=b`. -/
theorem formatAsJson_embedded_eq_counterexample :
    formatAsJson "KEY=\x22a=b\x22" ≠ [("KEY", "a=b")] := by
  decide

/-- C5 (amended): the classifier strips newline characters, splits the
line on `,`, splits each segment on EVERY `=` and takes the portion
between the first and the second `=` as the value (so a value containing
`=` is truncated at the embedded `=`), removing all double-quote
characters from it; in particular `KEY="a=b"` maps KEY to `a`. -/
theorem formatAsJson_splits_every_eq :
    formatAsJson "KEY=\x22a=b\x22" = [("KEY", "a")]
    ∧ formatAsJson "A=\x221\x22\n,B=\x222\x22" = [("A", "1"), ("B", "2")] := by
  decide

/-! ### Normalization facade (`normalizeData`, normalize.js 219-237) -/

/-- `constants.STATS_KEY_SEP` — constants.js is not under src/.  Modelled
from the spec: "splits path on a configured separator"; the concrete
separator value is irrelevant to the claims. -/
def STATS_KEY_SEP : String := "::"

/-- Split on every occurrence of a (non-empty, multi-character)
separator sequence. -/
def splitSeq (sep : List Char) : List Char → List (List Char)
  | [] => [[]]
  | c :: rest =>
    if sep ≠ [] ∧ seqStarts sep (c :: rest) = true then
      [] :: splitSeq sep ((c :: rest).drop sep.length)
    else
      match splitSeq sep rest with
      | h :: t => (c :: h) :: t
      | [] => [[c]]
termination_by s => s.length
decreasing_by
  · rename_i h
    rw [List.length_drop]
    have hp : 0 < sep.length := List.length_pos.2 h.1
    simp only [List.length_cons]
    omega
  · simp only [List.length_cons]
    omega

/-- Canonical decimal array-index string, as tested by `i in ret` on a
JavaScript array. -/
def parseIdxAux : List Char → Nat → Option Nat
  | [], acc => some acc
  | c :: rest, acc =>
    if c.isDigit then parseIdxAux rest (acc * 10 + (c.toNat - 48)) else none

/-- Parse a canonical array index (no empty string, no leading zero). -/
def parseIdx : List Char → Option Nat
  | [] => none
  | ['0'] => some 0
  | '0' :: _ :: _ => none
  | l => parseIdxAux l 0

/-- `getDataByKey` (normalize.js lines 75-88): split the key on the
configured separator and walk down the tree; any missing key yields the
sentinel string `missing key` instead of an error.  Objects are looked up
by key; arrays answer `i in ret` for canonical index strings
(meta-properties of JavaScript arrays are outside the JSON data model);
scalars have no keys. -/
def getDataByKey (data : JData) (key : String) : JData :=
  (splitSeq STATS_KEY_SEP.toList key.toList).foldl
    (fun ret i =>
      match ret with
      | .obj kvs =>
        match lookupKey kvs (String.mk i) with
        | some v => v
        | none => .str "missing key"
      | .arr xs =>
        match parseIdx i with
        | some n =>
          match xs.get? n with
          | some v => v
          | none => .str "missing key"
        | none => .str "missing key"
      | _ => .str "missing key") data

/-- Modelled from the spec: `util.filterDataByKeys` (util.js is not under
src/).  Spec 4.2: "recursively retains only keys present in the
allow-list at every level; non-matching subtrees are dropped entirely". -/
def filterDataByKeys (d : JData) (allow : List String) : JData :=
  match d with
  | .obj kvs => .obj ((kvs.filter (fun p => allow.contains p.1)).attach.map
      (fun p => (p.1.1, filterDataByKeys p.1.2 allow)))
  | .arr xs => .arr (xs.attach.map (fun x => filterDataByKeys x.1 allow))
  | d => d
termination_by jsize d
decreasing_by
  · exact jsize_mem_pairs (List.mem_of_mem_filter p.2)
  · exact jsize_mem_elems x.2

/-- `runCustomFunction` (normalize.js lines 50-65).  The function table
`normalizeUtil` lives in normalizeUtil.js, which is not under src/, so
the registry is a parameter of the embedding; a registered function is
taken already closed over its validated `options.args` (the reserved
`data`-argument check of lines 54-59 concerns the construction of those
args).  An unknown name makes `normalizeUtil[options.func](args)` throw,
which line 63 wraps and rethrows. -/
def runCustomFunction (registry : String → Option (JData → JData)) (data : JData)
    (funcName : String) : Except String JData :=
  match registry funcName with
  | some f => Except.ok (f data)
  | none => Except.error "runCustomFunction failed"

/-- The options record of `normalizeData` (normalize.js lines 206-218):
absent options are `none`. -/
structure NormalizeOpts where
  key : Option String
  filterByKeys : Option (List String)
  renameKeysByPattern : Option (List RenamePattern)
  convertArrayToMap : Option CatmOpts
  runCustomFunction : Option String

/-- `normalizeData` (normalize.js lines 219-237): reduce first (passing
`convertArrayToMap` through), then key-descend, filter, rename and the
custom function, each applied only when its option is present. -/
def normalizeData (registry : String → Option (JData → JData)) (data : JData)
    (o : NormalizeOpts) : Except String JData :=
  let ret := reduceData { convertArrayToMap := o.convertArrayToMap } data
  let ret := match o.key with
    | some k => getDataByKey ret k
    | none => ret
  let ret := match o.filterByKeys with
    | some fk => filterDataByKeys ret fk
    | none => ret
  let ret := match o.renameKeysByPattern with
    | some ps => renameKeysInData ps ret
    | none => ret
  match o.runCustomFunction with
  | some f => runCustomFunction registry ret f
  | none => Except.ok ret

/-- The key-descend stage: the identity when the option is absent. -/
def keyStage (k : Option String) (d : JData) : JData :=
  match k with
  | some k => getDataByKey d k
  | none => d

/-- The filter stage: the identity when the option is absent. -/
def filterStage (fk : Option (List String)) (d : JData) : JData :=
  match fk with
  | some fk => filterDataByKeys d fk
  | none => d

/-- The rename stage: the identity when the option is absent. -/
def renameStage (ps : Option (List RenamePattern)) (d : JData) : JData :=
  match ps with
  | some ps => renameKeysInData ps d
  | none => d

/-- The custom-function stage: plain success when the option is absent. -/
def customStage (registry : String → Option (JData → JData))
    (f : Option String) (d : JData) : Except String JData :=
  match f with
  | some f => runCustomFunction registry d f
  | none => Except.ok d

/-- C8: `normalizeData` is exactly the composition, in this fixed order,
of the tree reducer (always run, with `convertArrayToMap`), the
key-descend stage, the filter stage, the rename stage and the
custom-function stage — and each optional stage is the identity exactly
when its option is absent. -/
theorem normalizeData_stage_order (registry : String → Option (JData → JData))
    (d : JData) (o : NormalizeOpts) :
    normalizeData registry d o =
      customStage registry o.runCustomFunction
        (renameStage o.renameKeysByPattern
          (filterStage o.filterByKeys
            (keyStage o.key
              (reduceData { convertArrayToMap := o.convertArrayToMap } d))))
    ∧ (∀ t, keyStage none t = t) ∧ (∀ t, filterStage none t = t)
    ∧ (∀ t, renameStage none t = t)
    ∧ (∀ t, customStage registry none t = Except.ok t) := by
  exact ⟨rfl, fun t => rfl, fun t => rfl, fun t => rfl, fun t => rfl⟩

/-! ### Poller scheduler reconciliation (system-poller change handler) -/

/-- One poller's configuration as read by the change handler: the
handler uses `config.interval` for scheduling and checks
`config.enable === false` (an absent flag counts as enabled). -/
structure PollerConf where
  interval : Nat
  enable : Option Bool
  deriving DecidableEq

/-- `util.stop(pollerIDs[k]); delete pollerIDs[k]` — remove the job. -/
def removePoller (reg : List (String × PollerConf)) (k : String) :
    List (String × PollerConf) :=
  reg.filter (fun p => p.1 ≠ k)

/-- `pollerIDs[k] = util.start(...)` or `util.update(pollerIDs[k], ...)`:
the registry binds `k` to a live scheduled job driven by `c`. -/
def setPoller (reg : List (String × PollerConf)) (k : String) (c : PollerConf) :
    List (String × PollerConf) :=
  if reg.any (fun p => p.1 == k) then
    reg.map (fun p => if p.1 == k then (k, c) else p)
  else reg ++ [(k, c)]

/-- The `configWorker.on('change')` handler of the system-poller module
(src/unnamed/part_002 lines 140-185) as a function on the job registry
`pollerIDs`.  `util.start` / `util.update` / `util.stop` live in util.js,
which is not under src/ — Modelled from the spec: a registry entry stands
for a named job with a live interval timer; stop-and-delete removes it,
start/update (re)binds it under the new configuration.  `config = none`
models a snapshot in which the whole poller class is absent
(`config[CLASS_NAME]` undefined): lines 151-158 stop every job.
Otherwise lines 160-181 iterate ONLY the names present in the snapshot:
`enable === false` stops a running job of that name, an existing name is
updated, a new name is started.  A registry entry whose name is absent
from the snapshot is never visited, so its timer keeps running. -/
def pollerReconcile (registry : List (String × PollerConf))
    (config : Option (List (String × PollerConf))) : List (String × PollerConf) :=
  match config with
  | none => []
  | some pollers =>
    pollers.foldl (fun reg kp =>
      if kp.2.enable = some false then removePoller reg kp.1
      else setPoller reg kp.1 kp.2) registry

/-- C2 (code evaluated at the failing input): reconciling a registry that
holds jobs `A` and `B` against a snapshot that still contains the poller
class but names only `A` leaves `B` — absent from the snapshot — in the
registry with its live timer, contradicting the claim that no absent
poller survives reconciliation.  The other two conjuncts show the cases
the handler does cover: a snapshot without the poller class stops
everything, and an explicit `enable: false` removes the named job. -/
theorem pollerReconcile_orphan_eval :
    pollerReconcile [("A", ⟨60, none⟩), ("B", ⟨60, none⟩)] (some [("A", ⟨60, none⟩)]) =
      [("A", ⟨60, none⟩), ("B", ⟨60, none⟩)]
    ∧ pollerReconcile [("A", ⟨60, none⟩), ("B", ⟨60, none⟩)] none = []
    ∧ pollerReconcile [("A", ⟨60, none⟩), ("B", ⟨60, some false⟩)]
        (some [("A", ⟨60, none⟩), ("B", ⟨60, some false⟩)]) = [("A", ⟨60, none⟩)] := by
  decide

/-! ### Ingestion listener error handling (event-listener module) -/

/-- The event-listener module's error wiring (src/unnamed/part_001,
`start`, lines 31-64).  `start` registers
`server.on('error', (err) => { throw err; })`.  The `error` event fires
asynchronously — a bind failure such as `EADDRINUSE` is emitted after
`server.listen` has returned — so when the handler runs, the
`try`/`catch` of lines 40-62 has long exited and the rethrow escapes the
listener component.  The handler is therefore modelled as a standalone
function from the received error to the outcome the process observes. -/
def listenerOnError (err : String) : Except String Unit :=
  Except.error err

/-- C3 (code evaluated at the failing input): the registered `error`
handler re-raises every listener-level error instead of logging and
swallowing it — a bind failure on an occupied port propagates out of the
listener component, contradicting the claim (and the source's own
`catch any errors` comment). -/
theorem listenerOnError_rethrows :
    listenerOnError "EADDRINUSE" = Except.error "EADDRINUSE"
    ∧ ∀ e, listenerOnError e ≠ Except.ok () := by
  exact ⟨rfl, fun e h => by cases h⟩
